import Mathlib

/-!
Verification development for the periph GPIO signal-shaping code:
the bcm283x rasterizer (raster32Bits / raster32Edges / raster32 / raster)
and the gpioutil input conditioners (debounced, pollEdge).

Conventions of the shallow embedding:
* gpio.Level (a Go bool) is Lean Bool: Low = false, High = true.
* time.Time and time.Duration are Int (nanoseconds); time.Time.Sub is
  integer subtraction, time.Time.After is strict greater-than.
* Go uint32 buffer words are Nat; the bitwise or `w |= mask` is Nat lor.
* Go methods become pure functions taking the receiver state and the
  values produced by the injected collaborators (raw pin reads, the
  mocked clock `now`), returning the result together with the updated
  state.
-/

namespace Periph

/-- gpio.Edge: NoEdge, RisingEdge, FallingEdge, BothEdges. -/
inductive Edge where
  | noEdge
  | risingEdge
  | fallingEdge
  | bothEdges
deriving DecidableEq

/-- Mutable state of the gpioutil.debounced decorator: the two configured
windows, the armed edge, the last steady level and the two timestamps
(polledge.go, struct debounced). -/
structure DebState where
  denoise : Int
  debounce : Int
  edge : Edge
  steady : Bool
  lastSteady : Int
  lastGlitch : Int
deriving DecidableEq

/-- debounced.Read (polledge.go). `l` is the value the underlying
pin returns from Read(), `n` is the value the injected clock `now()`
returns when (and if) the code calls it. Returns the level reported to
the caller and the updated mutable state, mirroring the Go source
branch for branch. -/
def DebState.read (d : DebState) (l : Bool) (n : Int) : Bool × DebState :=
  if l = d.steady then
    -- Same as the previous steady reported value; zap a pending glitch.
    if d.lastGlitch > d.lastSteady then
      (d.steady, { d with lastGlitch := d.lastSteady })
    else
      (d.steady, d)
  else
    let delta := d.lastGlitch - d.lastSteady
    if delta ≥ 0 then
      -- denoise filtering mode.
      if delta ≥ d.denoise then
        (l, { d with steady := l, lastSteady := n })
      else
        (d.steady, { d with lastGlitch := n })
    else
      -- debounce filtering mode.
      if -delta ≥ d.debounce then
        (l, { d with steady := l, lastSteady := n })
      else
        (d.steady, d)

/-- Runs debounced.Read over a whole sequence of sampled (raw level,
clock value) pairs, threading the mutable state, and collects the levels
Read() reported. -/
def DebState.readTrace (d : DebState) : List (Bool × Int) → List Bool
  | [] => []
  | (l, n) :: rest =>
    let r := d.read l n
    r.1 :: r.2.readTrace rest

/-- debounced.WaitForEdge (polledge.go). `nativeOk` is what the wrapped
pin's WaitForEdge(timeout) returned; on success the code reads the pin
(`l`) and the clock (`n`). The dead `if d.edge != gpio.BothEdges` block
in the source has no effect and is omitted. -/
def DebState.waitForEdge (d : DebState) (nativeOk : Bool) (l : Bool) (n : Int) :
    Bool × DebState :=
  if nativeOk = false then
    (false, d)
  else
    (true, { d with steady := l, lastSteady := n, lastGlitch := n })

/-- Pins as seen by the gpioutil decorators: a raw pin (identified by an
id; gpiotest.Pin implements no gpio.RealPin), or one of the two
decorators wrapping an inner pin. -/
inductive Pin where
  | raw : Nat → Pin
  | debounced : Pin → DebState → Pin
  | pollEdge : Pin → Int → Pin
deriving DecidableEq

/-- Whether the pin's dynamic type implements gpio.RealPin: both
decorators do, a raw pin does not. -/
def Pin.isRealPin : Pin → Bool
  | .raw _ => false
  | .debounced _ _ => true
  | .pollEdge _ _ => true

/-- The Real() method shared verbatim by debounced.Real and
pollEdge.Real: if the wrapped pin implements gpio.RealPin, return its
Real(), else return the wrapped pin. The raw case is unreachable in Go
(a raw pin has no Real method) and returns the pin itself. -/
def Pin.Real : Pin → Pin
  | .raw n => .raw n
  | .debounced p _ => if p.isRealPin then p.Real else p
  | .pollEdge p _ => if p.isRealPin then p.Real else p

/-- The innermost pin of a decorator stack: the specification-side
notion "the original raw pin instance" that unwrapping is claimed to
return. -/
def Pin.innermost : Pin → Pin
  | .raw n => .raw n
  | .debounced p _ => p.innermost
  | .pollEdge p _ => p.innermost

/-- Decoration depth, used to separate a wrapped pin from its inner pin. -/
def Pin.depth : Pin → Nat
  | .raw _ => 0
  | .debounced p _ => p.depth + 1
  | .pollEdge p _ => p.depth + 1

/-- gpioutil.Debounce (polledge.go). The collaborator results are passed
in: `inOk` is whether p.In(PullNoChange, BothEdges) succeeded, `l` the
initial p.Read(), `t` the constructor's now(). Returns the pin handed
back to the caller, or an error when configuring the raw pin failed. -/
def Debounce (p : Pin) (denoise debounce : Int) (edge : Edge)
    (inOk : Bool) (l : Bool) (t : Int) : Except Unit Pin :=
  if denoise = 0 ∧ debounce = 0 then
    .ok p
  else if inOk = false then
    .error ()
  else
    .ok (.debounced p ⟨denoise, debounce, edge, l, t, t⟩)

/-- The sampling loop at the heart of pollEdge.WaitForEdge (polledge.go):
`curr` is the level observed before the loop (the initial p.PinIO.Read()),
`ss` the successive ticker samples delivered before the timeout fires;
an exhausted list is the `<-p.die` timeout branch returning false. In the
Go switch, NoEdge matches no case, so the loop continues without
updating `curr`. -/
def pollEdgeLoop (edge : Edge) : Bool → List Bool → Bool
  | _, [] => false
  | curr, n :: rest =>
    if n ≠ curr then
      match edge with
      | .risingEdge => if n = true then true else pollEdgeLoop edge n rest
      | .fallingEdge => if n = false then true else pollEdgeLoop edge n rest
      | .bothEdges => true
      | .noEdge => pollEdgeLoop edge curr rest
    else
      pollEdgeLoop edge curr rest

/-- gpiostream.BitStream. Modelled from the spec: the gpiostream package
is not under src; per the spec a BitStream is a dense sequence of bits
(packed in bytes), a per-bit resolution, and an LSB-first flag. Bytes are
Nat (only the low 8 bits matter to getBit). -/
structure BitStream where
  res : Int
  bits : List Nat
  lsbf : Bool
deriving DecidableEq

/-- gpiostream.BitStreamLSB. Modelled from the spec: a dense LSB-first
bit sequence with a per-bit resolution; its duration is
res * 8 * len(bits) (one slot per bit). -/
structure BitStreamLSB where
  res : Int
  bits : List Nat
deriving DecidableEq

/-- Duration of a BitStreamLSB. Modelled from the spec: number of bits
times the per-bit resolution. -/
def BitStreamLSB.duration (b : BitStreamLSB) : Int :=
  b.res * (8 * b.bits.length)

/-- gpiostream.EdgeStream. Modelled from the spec: a declared resolution
plus a strictly increasing sequence of edge timestamps relative to
stream start. -/
structure EdgeStream where
  res : Int
  edges : List Int
deriving DecidableEq

/-- EdgeStream.Duration. Modelled from the spec: the duration is the
last edge timestamp (0 for no edges). -/
def EdgeStream.duration (e : EdgeStream) : Int :=
  e.edges.getLastD 0

/-- gpiostream.Stream, the closed set of variants the bcm283x type
switches dispatch on. -/
inductive Stream where
  | bits : BitStream → Stream
  | bitsLSB : BitStreamLSB → Stream
  | edges : EdgeStream → Stream
  | program : List Stream → Stream

/-- getBit (streams file): bit `index` of byte `b`, counted from the
most significant bit when `msb`, else from the least significant. -/
def getBit (b : Nat) (index : Nat) (msb : Bool) : Nat :=
  let shift := if msb then 7 - index else index
  (b >>> shift) &&& 1

/-- The sequence of buffer writes performed by the raster32Bits triple
loop, in order: entry `true` is `set[index] |= mask`, entry `false` is
`clear[index] |= mask`; the i-th entry of the list is written at index i
(the Go `index` counter starts at 0 and increments once per write).
`m` is the byte count the outer loop runs over. -/
def raster32BitsOps (bits : List Nat) (msb : Bool) (skip m : Nat) : List Bool :=
  (bits.take m).flatMap fun b =>
    (List.range 8).flatMap fun j =>
      List.replicate skip (getBit b j msb != 0)

/-- One buffer write `buf[i] |= mask`. Go panics when i is out of range;
here the write is dropped (the claims about in-bounds behavior track the
attempted index separately). -/
def writeOp (buf : List Nat) (i : Nat) (mask : Nat) : List Nat :=
  buf.set i (buf.getD i 0 ||| mask)

/-- Replays the write sequence of raster32Bits against the clear/set
buffers, with `idx` the running Go `index` counter. -/
def raster32BitsApply (mask : Nat) : Nat → List Bool → List Nat → List Nat →
    List Nat × List Nat
  | _, [], clear, set => (clear, set)
  | idx, op :: ops, clear, set =>
    if op then
      raster32BitsApply mask (idx + 1) ops clear (writeOp set idx mask)
    else
      raster32BitsApply mask (idx + 1) ops (writeOp clear idx mask) set

/-- raster32Bits (streams file): type-switches on the stream (only
BitStream is supported), computes m = min(len(clear)/8, len(bits)), and
writes skip consecutive words per bit, set words for 1 bits and clear
words for 0 bits, MSB-first within each byte unless LSBF. -/
def raster32Bits (s : Stream) (skip : Nat) (clear set : List Nat) (mask : Nat) :
    Except String (List Nat × List Nat) :=
  match s with
  | .bits b =>
    let msb := !b.lsbf
    let m := min (clear.length / 8) b.bits.length
    .ok (raster32BitsApply mask 0 (raster32BitsOps b.bits msb skip m) clear set)
  | _ => .error "unsupported type"

/-- The fill loop of raster32Edges: `for i := range clear`, setting the
lane bit of set[i] when the current level l is High and of clear[i]
otherwise. In the source l starts at gpio.High and is never updated (the
edge walk is commented out), so the caller passes a constant l. -/
def raster32EdgesFill (mask : Nat) (l : Bool) : List Nat → List Nat →
    List Nat × List Nat
  | c :: cs, s :: ss =>
    let r := raster32EdgesFill mask l cs ss
    if l then (c :: r.1, (s ||| mask) :: r.2)
    else ((c ||| mask) :: r.1, s :: r.2)
  | cs, ss => (cs, ss)

/-- raster32Edges (streams file): rejects resolution < e.Res with the
"resolution is too coarse" error, rejects a buffer whose span
resolution*len(clear) is shorter than the stream duration, then fills
every slot with level High (l is initialized to gpio.High and the
`edges := e.Edges` walk is commented out in the source). -/
def raster32Edges (e : EdgeStream) (resolution : Int) (clear set : List Nat)
    (mask : Nat) : Except String (List Nat × List Nat) :=
  if resolution < e.res then
    .error "bcm283x: resolution is too coarse"
  else if e.duration > resolution * (clear.length : Int) then
    .error "bcm283x: buffer is too short"
  else
    .ok (raster32EdgesFill mask true clear set)

/-- raster32Program (streams file): a stub that is never called by
raster32 (the Program case of the switch recurses on raster32 itself). -/
def raster32Program : Except String (List Nat × List Nat) :=
  .error "bcm283x: implement me"

/-- Outcome of running a Go function that may not terminate: a value, a
returned error, or exhaustion of the call-stack fuel (the Go program
never returns in that case). -/
inductive RunResult (α : Type) where
  | ok : α → RunResult α
  | err : String → RunResult α
  | outOfFuel : RunResult α
deriving DecidableEq

/-- Lifts the result of a terminating helper into RunResult. -/
def liftRun {α : Type} : Except String α → RunResult α
  | .ok a => .ok a
  | .error e => .err e

/-- raster32 (streams file), with explicit fuel for the Go call stack.
Validates mask and buffers, then dispatches on the stream type. The
source's Program case reads `return raster32(x, resolution, clear, set,
mask)`: it recurses on the very same stream value (never on
raster32Program and never on the sub-signals), so the recursion never
terminates; the free identifier `resolution` of the source is threaded
here as an explicit argument, and the arguments are passed through
unchanged, which does not affect the non-termination. -/
def raster32 (fuel : Nat) (s : Stream) (skip : Nat) (resolution : Int)
    (clear set : List Nat) (mask : Nat) : RunResult (List Nat × List Nat) :=
  match fuel with
  | 0 => .outOfFuel
  | f + 1 =>
    if mask = 0 then .err "bcm283x: mask is 0"
    else if clear.length = 0 then .err "bcm283x: clear buffer is empty"
    else if set.length = 0 then .err "bcm283x: set buffer is empty"
    else if clear.length ≠ set.length then
      .err "bcm283x: clear and set buffers have different length"
    else
      match s with
      | .bits b => liftRun (raster32Bits (.bits b) skip clear set mask)
      | .edges e => liftRun (raster32Edges e resolution clear set mask)
      | .program ps => raster32 f (.program ps) skip resolution clear set mask
      | _ => .err "bcm283x: unknown stream type"

/-- Go copy(dst, src): overwrites the first min(len dst, len src)
entries of dst with those of src. -/
def copyList (dst src : List Nat) : List Nat :=
  src.take (min dst.length src.length) ++ dst.drop (min dst.length src.length)

/-- rasterBits (streams file): requires matching resolutions, requires
the output buffer to span the input duration, then copies the packed
bits. Returns the new output bits. -/
def rasterBits (b : BitStreamLSB) (out : BitStreamLSB) :
    Except String (List Nat) :=
  if out.res ≠ b.res then
    .error "bcm283x: TODO: implement resolution matching"
  else if b.duration > out.res * (out.bits.length * 8 : Int) then
    .error "bcm283x: buffer is too short"
  else
    .ok (copyList out.bits b.bits)

/-- rasterEdges (streams file): unimplemented stub. -/
def rasterEdges : Except String (List Nat) :=
  .error "bcm283x: implement me"

/-- rasterProgram (streams file): a stub never called by raster (the
Program case of the switch recurses on raster itself). -/
def rasterProgram : Except String (List Nat) :=
  .error "bcm283x: implement me"

/-- raster (streams file), with explicit fuel for the Go call stack. The
source's Program case reads `return raster(x, out)`: it recurses on the
same stream value forever instead of calling rasterProgram. -/
def raster (fuel : Nat) (s : Stream) (out : BitStreamLSB) :
    RunResult (List Nat) :=
  match fuel with
  | 0 => .outOfFuel
  | f + 1 =>
    match s with
    | .bitsLSB b => liftRun (rasterBits b out)
    | .edges _ => liftRun rasterEdges
    | .program ps => raster f (.program ps) out
    | _ => .err "bcm283x: unknown stream type"

/-- A decorator is never the same pin value as the pin it wraps: shared
structural fact behind the identity claims. -/
theorem debounced_ne_inner (p : Pin) (st : DebState) : Pin.debounced p st ≠ p := by
  intro h
  have hd := congrArg Pin.depth h
  simp only [Pin.depth] at hd
  omega

/-- Number of words of a buffer whose lane bit (any bit of `mask`) is
set: the lane-bit positions counted by the rasterization claims. -/
def countMask (mask : Nat) (buf : List Nat) : Nat :=
  (buf.filter fun w => w &&& mask != 0).length

/-- The t-th bit consumed by raster32Bits from a packed byte sequence:
byte t/8, bit t%8 within it, MSB-first unless LSBF. -/
def streamBit (bits : List Nat) (lsbf : Bool) (t : Nat) : Bool :=
  getBit (bits.getD (t / 8) 0) (t % 8) (!lsbf) != 0

/-- C1: the claim states that a raw level differing from the steady
level that persists for less than denoiseWindow never changes the value
read() returns, and that after a promotion a differing reading is held
until debounceWindow has elapsed since lastSteadyAt. The code computes
the denoise measure as lastGlitch - lastSteady, the age of the steady
value, not the glitch's persistence: starting from a steady Low
established at time 0 with denoise = 10 and debounce = 5, a High glitch
sampled at times 100 and 101 (persisting for 1 < 10) is promoted at the
second sample, and the Low readings at 200 and 300 (debounceWindow long
past lastSteadyAt = 101) are ignored forever, because the debounce
measure lastSteady - lastGlitch = 1 is frozen. The claim's predicted
trace is [false, false, false, false]; the code produces
[false, true, true, true]. -/
theorem read_denoise_ignores_glitch_duration :
    DebState.readTrace ⟨10, 5, .bothEdges, false, 0, 0⟩
      [(true, 100), (true, 101), (false, 200), (false, 300)]
    = [false, true, true, true] := by decide

/-- C3: the claim states that raster32Edges fails with the "resolution
too coarse" error exactly when the requested resolution is coarser than
the stream's (requiring resolution <= stream.res). The code's check is
inverted (`if resolution < e.Res`): a request strictly finer than the
stream (1 < 2) is rejected with the "too coarse" message, while a
coarser request (2 > 1) passes the check and succeeds. The second check
matches the claim: duration exceeding resolution*len(clear) fails with
"buffer is too short". -/
theorem raster32Edges_resolution_check_inverted :
    raster32Edges ⟨2, [1]⟩ 1 [0] [0] 1 =
      .error "bcm283x: resolution is too coarse"
  ∧ raster32Edges ⟨1, [1]⟩ 2 [0] [0] 1 = .ok ([0], [1])
  ∧ raster32Edges ⟨1, [3]⟩ 1 [0, 0] [0, 0] 1 =
      .error "bcm283x: buffer is too short" :=
  ⟨rfl, rfl, rfl⟩

/-- C4: the claim states that each output slot of raster32Edges carries
the level of the nearest preceding edge. The source never walks the edge
list (`edges := e.Edges` is commented out) and fills every slot with
High: for a stream of resolution 1 with a transition at t = 1 rasterized
into 2 slots, slot 1 is still marked High in `set`, and the output is
identical for streams that differ only in their edge lists. -/
theorem raster32Edges_output_ignores_edges :
    raster32Edges ⟨1, [1]⟩ 1 [0, 0] [0, 0] 1 = .ok ([0, 0], [1, 1])
  ∧ raster32Edges ⟨1, [1, 2]⟩ 1 [0, 0] [0, 0] 1 =
      raster32Edges ⟨1, [2]⟩ 1 [0, 0] [0, 0] 1 :=
  ⟨rfl, rfl⟩

/-- C5: the claim states that raster32 and raster terminate on Program
streams with a distinguishable "not implemented" error. The source's
Program cases recurse on the same stream value (never calling the
raster32Program / rasterProgram stubs), so for every call-stack budget
the calls only run out of fuel: the Go originals never return. -/
theorem raster32_raster_program_diverge (fuel : Nat) (ps : List Stream)
    (skip : Nat) (resolution : Int) (clear set : List Nat) (mask : Nat)
    (out : BitStreamLSB) (hmask : mask ≠ 0) (hc : clear.length ≠ 0)
    (hs : set.length ≠ 0) (hlen : clear.length = set.length) :
    raster32 fuel (.program ps) skip resolution clear set mask = .outOfFuel
  ∧ raster fuel (.program ps) out = .outOfFuel := by
  induction fuel with
  | zero => exact ⟨rfl, rfl⟩
  | succ f ih =>
    constructor
    · show raster32 (f + 1) (.program ps) skip resolution clear set mask = _
      simp only [raster32]
      rw [if_neg hmask, if_neg hc, if_neg hs, if_neg (not_not_intro hlen)]
      exact ih.1
    · show raster (f + 1) (.program ps) out = _
      simp only [raster]
      exact ih.2

/-- Witness for C5 at a concrete nested program and valid buffers. -/
theorem raster32_raster_program_diverge_witness :
    raster32 5 (.program []) 1 7 [0] [0] 1 = .outOfFuel
  ∧ raster 5 (.program []) ⟨1, [0]⟩ = .outOfFuel :=
  raster32_raster_program_diverge 5 [] 1 7 [0] [0] 1 ⟨1, [0]⟩
    (by decide) (by decide) (by decide) (by decide)

/-- C7: Debounce with both windows zero returns the identical pin value
with no error, before touching the raw pin; with any other window
combination it either propagates the In() configuration error or returns
a freshly built debounced decorator, which is never the raw pin
instance itself. -/
theorem Debounce_zero_windows_identity (p : Pin) (edge : Edge) (inOk : Bool)
    (l : Bool) (t : Int) :
    Debounce p 0 0 edge inOk l t = .ok p
  ∧ ∀ denoise debounce : Int, ¬(denoise = 0 ∧ debounce = 0) →
      Debounce p denoise debounce edge inOk l t = .error ()
    ∨ (Debounce p denoise debounce edge inOk l t =
        .ok (.debounced p ⟨denoise, debounce, edge, l, t, t⟩)
      ∧ Pin.debounced p ⟨denoise, debounce, edge, l, t, t⟩ ≠ p) := by
  constructor
  · simp [Debounce]
  · intro dn db h
    unfold Debounce
    rw [if_neg h]
    cases inOk with
    | false => exact Or.inl rfl
    | true => exact Or.inr ⟨rfl, debounced_ne_inner p _⟩

/-- Witness for C7 at a concrete raw pin: the zero-window fast path is
the identity and a nonzero denoise window yields a distinct wrapper. -/
theorem Debounce_zero_windows_identity_witness :
    Debounce (.raw 3) 0 0 .bothEdges true false 0 = .ok (.raw 3)
  ∧ (Debounce (.raw 3) 1 0 .bothEdges true false 0 = .error ()
    ∨ (Debounce (.raw 3) 1 0 .bothEdges true false 0 =
        .ok (.debounced (.raw 3) ⟨1, 0, .bothEdges, false, 0, 0⟩)
      ∧ Pin.debounced (.raw 3) ⟨1, 0, .bothEdges, false, 0, 0⟩ ≠ .raw 3)) := by
  have h := Debounce_zero_windows_identity (.raw 3) .bothEdges true false 0
  exact ⟨h.1, h.2 1 0 (by decide)⟩

/-- C8: debounced.WaitForEdge returns false on a native timeout leaving
every mutable field (steady, lastSteady, lastGlitch, edge) and the
configuration untouched; on a native edge it returns true after
re-synchronizing steady to the fresh reading and both timestamps to
now. -/
theorem waitForEdge_frame (d : DebState) (l : Bool) (n : Int) :
    d.waitForEdge false l n = (false, d)
  ∧ (d.waitForEdge true l n).1 = true
  ∧ (d.waitForEdge true l n).2.steady = l
  ∧ (d.waitForEdge true l n).2.lastSteady = n
  ∧ (d.waitForEdge true l n).2.lastGlitch = n
  ∧ (d.waitForEdge true l n).2.edge = d.edge
  ∧ (d.waitForEdge true l n).2.denoise = d.denoise
  ∧ (d.waitForEdge true l n).2.debounce = d.debounce :=
  ⟨rfl, rfl, rfl, rfl, rfl, rfl, rfl, rfl⟩

/-- Every decorator stack bottoms out at a raw pin. -/
theorem innermost_is_raw (p : Pin) : ∃ n, p.innermost = Pin.raw n := by
  induction p with
  | raw n => exact ⟨n, rfl⟩
  | debounced q st ih => exact ih
  | pollEdge q per ih => exact ih

/-- C9: invoking Real() on any decorated pin (a pin whose dynamic type
implements gpio.RealPin, i.e. any stack of debounced / pollEdge
decorators of any depth) returns the innermost pin of the stack, which
is the original raw pin instance. -/
theorem Real_returns_innermost (p : Pin) (h : p.isRealPin = true) :
    p.Real = p.innermost ∧ ∃ n, p.innermost = Pin.raw n := by
  refine ⟨?_, innermost_is_raw p⟩
  induction p with
  | raw n => simp [Pin.isRealPin] at h
  | debounced q st ih =>
    show (if q.isRealPin then q.Real else q) = q.innermost
    cases hq : q.isRealPin with
    | true => rw [if_pos rfl]; exact ih hq
    | false =>
      rw [if_neg (by simp)]
      cases q with
      | raw n => rfl
      | debounced r st2 => simp [Pin.isRealPin] at hq
      | pollEdge r per => simp [Pin.isRealPin] at hq
  | pollEdge q per ih =>
    show (if q.isRealPin then q.Real else q) = q.innermost
    cases hq : q.isRealPin with
    | true => rw [if_pos rfl]; exact ih hq
    | false =>
      rw [if_neg (by simp)]
      cases q with
      | raw n => rfl
      | debounced r st2 => simp [Pin.isRealPin] at hq
      | pollEdge r per2 => simp [Pin.isRealPin] at hq

/-- Witness for C9: unwrapping a pin decorated three levels deep
(debounce of poll of debounce) returns the original raw pin. -/
theorem Real_returns_innermost_witness :
    Pin.Real (.debounced (.pollEdge (.debounced (.raw 7)
      ⟨0, 0, .bothEdges, false, 0, 0⟩) 5) ⟨0, 0, .bothEdges, false, 0, 0⟩)
    = .raw 7 := by
  have h := Real_returns_innermost (.debounced (.pollEdge (.debounced (.raw 7)
    ⟨0, 0, .bothEdges, false, 0, 0⟩) 5) ⟨0, 0, .bothEdges, false, 0, 0⟩) rfl
  exact h.1.trans rfl

/-- When every sample equals the previously observed level, no edge mode
ever reports an edge. -/
theorem pollEdgeLoop_const (ss : List Bool) :
    ∀ curr, (∀ s ∈ ss, s = curr) → ∀ e, pollEdgeLoop e curr ss = false := by
  induction ss with
  | nil => intro curr _ e; rfl
  | cons n rest ih =>
    intro curr h e
    have hn : n = curr := h n (List.mem_cons_self n rest)
    subst hn
    have hstep : pollEdgeLoop e n (n :: rest) = pollEdgeLoop e n rest := by
      simp [pollEdgeLoop]
    rw [hstep]
    exact ih n (fun s hs => h s (List.mem_cons_of_mem n hs)) e

/-- RisingEdge reports an edge only when some sample was High. -/
theorem pollEdgeLoop_rising_mem (ss : List Bool) :
    ∀ curr, pollEdgeLoop .risingEdge curr ss = true → true ∈ ss := by
  induction ss with
  | nil => intro curr h; exact absurd h (by simp [pollEdgeLoop])
  | cons n rest ih =>
    intro curr h
    by_cases hn : n = curr
    · subst hn
      have hstep : pollEdgeLoop .risingEdge n (n :: rest) =
          pollEdgeLoop .risingEdge n rest := by simp [pollEdgeLoop]
      exact List.mem_cons_of_mem n (ih n (hstep ▸ h))
    · cases hv : n with
      | true => exact hv ▸ List.mem_cons_self n rest
      | false =>
        subst hv
        have hstep : pollEdgeLoop .risingEdge curr (false :: rest) =
            pollEdgeLoop .risingEdge false rest := by
          have hc : curr = true := by
            cases curr with
            | true => rfl
            | false => exact absurd rfl hn
          subst hc
          simp [pollEdgeLoop]
        exact List.mem_cons_of_mem false (ih false (hstep ▸ h))

/-- FallingEdge reports an edge only when some sample was Low. -/
theorem pollEdgeLoop_falling_mem (ss : List Bool) :
    ∀ curr, pollEdgeLoop .fallingEdge curr ss = true → false ∈ ss := by
  induction ss with
  | nil => intro curr h; exact absurd h (by simp [pollEdgeLoop])
  | cons n rest ih =>
    intro curr h
    by_cases hn : n = curr
    · subst hn
      have hstep : pollEdgeLoop .fallingEdge n (n :: rest) =
          pollEdgeLoop .fallingEdge n rest := by simp [pollEdgeLoop]
      exact List.mem_cons_of_mem n (ih n (hstep ▸ h))
    · cases hv : n with
      | false => exact hv ▸ List.mem_cons_self n rest
      | true =>
        subst hv
        have hstep : pollEdgeLoop .fallingEdge curr (true :: rest) =
            pollEdgeLoop .fallingEdge true rest := by
          have hc : curr = false := by
            cases curr with
            | false => rfl
            | true => exact absurd rfl hn
          subst hc
          simp [pollEdgeLoop]
        exact List.mem_cons_of_mem true (ih true (hstep ▸ h))

/-- BothEdges reports an edge exactly when some sample differs from the
initially observed level (the loop never updates curr in that mode). -/
theorem pollEdgeLoop_both_iff (ss : List Bool) :
    ∀ curr, pollEdgeLoop .bothEdges curr ss = true ↔ (!curr) ∈ ss := by
  induction ss with
  | nil => intro curr; simp [pollEdgeLoop]
  | cons n rest ih =>
    intro curr
    by_cases hn : n = curr
    · subst hn
      have hstep : pollEdgeLoop .bothEdges n (n :: rest) =
          pollEdgeLoop .bothEdges n rest := by simp [pollEdgeLoop]
      rw [hstep, ih n]
      constructor
      · exact fun hm => List.mem_cons_of_mem n hm
      · intro hm
        rcases List.mem_cons.1 hm with hm | hm
        · exact absurd hm.symm (by cases n <;> decide)
        · exact hm
    · have hne : n = !curr := by cases curr <;> cases n <;> simp_all
      have hstep : pollEdgeLoop .bothEdges curr (n :: rest) = true := by
        cases curr <;> cases n <;> first | rfl | exact absurd rfl hn
      rw [hstep]
      simp [hne, List.mem_cons]

/-- NoEdge never reports an edge. -/
theorem pollEdgeLoop_noEdge (ss : List Bool) :
    ∀ curr, pollEdgeLoop .noEdge curr ss = false := by
  induction ss with
  | nil => intro curr; rfl
  | cons n rest ih =>
    intro curr
    by_cases hn : n = curr
    · subst hn
      have hstep : pollEdgeLoop .noEdge n (n :: rest) =
          pollEdgeLoop .noEdge n rest := by simp [pollEdgeLoop]
      rw [hstep]; exact ih n
    · have hstep : pollEdgeLoop .noEdge curr (n :: rest) =
          pollEdgeLoop .noEdge curr rest := by
        cases curr <;> cases n <;> rfl
      rw [hstep]; exact ih curr

/-- C6: the poll-edge sampling loop reports an edge only in the armed
direction: with no differing sample no mode reports an edge; RisingEdge
returns true only when some sample was High (so a falling transition
alone never produces true); FallingEdge only when some sample was Low;
BothEdges returns true exactly when a sample differs from the initially
observed level; NoEdge never reports. -/
theorem pollEdgeLoop_direction (curr : Bool) (ss : List Bool) :
    ((∀ s ∈ ss, s = curr) → ∀ e, pollEdgeLoop e curr ss = false)
  ∧ (pollEdgeLoop .risingEdge curr ss = true → true ∈ ss)
  ∧ (pollEdgeLoop .fallingEdge curr ss = true → false ∈ ss)
  ∧ (pollEdgeLoop .bothEdges curr ss = true ↔ (!curr) ∈ ss)
  ∧ pollEdgeLoop .noEdge curr ss = false :=
  ⟨pollEdgeLoop_const ss curr, pollEdgeLoop_rising_mem ss curr,
    pollEdgeLoop_falling_mem ss curr, pollEdgeLoop_both_iff ss curr,
    pollEdgeLoop_noEdge ss curr⟩

/-- Witness for C6: a rising trigger on samples [Low, High] implies a
High sample was seen, and an all-Low trace armed RisingEdge (a falling
transition alone) reports nothing. -/
theorem pollEdgeLoop_direction_witness :
    (true : Bool) ∈ [false, true]
  ∧ pollEdgeLoop .risingEdge true [false, false] = false := by
  constructor
  · exact (pollEdgeLoop_direction false [false, true]).2.1 rfl
  · have h2 := (pollEdgeLoop_direction true [false, false]).2.1
    cases hv : pollEdgeLoop .risingEdge true [false, false] with
    | false => rfl
    | true => exact absurd (h2 hv) (by decide)

theorem writeOp_length (buf : List Nat) (i mask : Nat) :
    (writeOp buf i mask).length = buf.length :=
  List.length_set buf i _

/-- A single masked write changes only the targeted in-range word. -/
theorem writeOp_getD (buf : List Nat) (i j mask : Nat) :
    (writeOp buf i mask).getD j 0 =
      if j = i ∧ i < buf.length then buf.getD i 0 ||| mask else buf.getD j 0 := by
  unfold writeOp
  by_cases hj : j = i
  · subst hj
    by_cases hi : j < buf.length
    · rw [if_pos ⟨rfl, hi⟩, List.getD_eq_getElem?_getD,
        List.getElem?_set_self hi]
      rfl
    · rw [if_neg (fun hc => hi hc.2), List.set_eq_of_length_le (by omega)]
  · rw [if_neg (fun hc => hj hc.1), List.getD_eq_getElem?_getD,
      List.getElem?_set_ne (fun hc => hj hc.symm), ← List.getD_eq_getElem?_getD]

theorem raster32BitsApply_length (mask : Nat) (ops : List Bool) :
    ∀ idx clear set,
      ((raster32BitsApply mask idx ops clear set).1.length = clear.length
      ∧ (raster32BitsApply mask idx ops clear set).2.length = set.length) := by
  induction ops with
  | nil => intro idx clear set; exact ⟨rfl, rfl⟩
  | cons op rest ih =>
    intro idx clear set
    cases op with
    | true =>
      have h := ih (idx + 1) clear (writeOp set idx mask)
      exact ⟨h.1, h.2.trans (writeOp_length set idx mask)⟩
    | false =>
      have h := ih (idx + 1) (writeOp clear idx mask) set
      exact ⟨h.1.trans (writeOp_length clear idx mask), h.2⟩

/-- Pointwise effect of replaying the write sequence from running index
`idx` on the clear buffer: word j gains the mask exactly when the op at
list position j - idx is an in-range clear write. -/
theorem raster32BitsApply_fst_getD (mask : Nat) (ops : List Bool) :
    ∀ idx clear set j,
      (raster32BitsApply mask idx ops clear set).1.getD j 0 =
        if idx ≤ j ∧ j < idx + ops.length ∧ ops.getD (j - idx) true = false
            ∧ j < clear.length
        then clear.getD j 0 ||| mask else clear.getD j 0 := by
  induction ops with
  | nil =>
    intro idx clear set j
    rw [if_neg (by rintro ⟨h1, h2, h3, h4⟩
                   simp only [List.length_nil] at h2; omega)]
    rfl
  | cons op rest ih =>
    intro idx clear set j
    cases op with
    | true =>
      have hred : raster32BitsApply mask idx (true :: rest) clear set
          = raster32BitsApply mask (idx + 1) rest clear (writeOp set idx mask) :=
        rfl
      rw [hred, ih (idx + 1) clear (writeOp set idx mask) j]
      by_cases hge : idx + 1 ≤ j
      · have hsub : j - idx = (j - (idx + 1)) + 1 := by omega
        rw [hsub]
        simp only [List.getD_cons_succ, List.length_cons]
        refine if_congr ?_ rfl rfl
        constructor
        · rintro ⟨h1, h2, h3, h4⟩; exact ⟨by omega, by omega, h3, h4⟩
        · rintro ⟨h1, h2, h3, h4⟩; exact ⟨by omega, by omega, h3, h4⟩
      · rw [if_neg (by rintro ⟨h1, h2, h3, h4⟩; omega)]
        by_cases hj : j = idx
        · subst hj
          rw [if_neg (by rintro ⟨h1, h2, h3, h4⟩
                         rw [Nat.sub_self, List.getD_cons_zero] at h3
                         exact absurd h3 (by decide))]
        · rw [if_neg (by rintro ⟨h1, h2, h3, h4⟩; omega)]
    | false =>
      have hred : raster32BitsApply mask idx (false :: rest) clear set
          = raster32BitsApply mask (idx + 1) rest (writeOp clear idx mask) set :=
        rfl
      rw [hred, ih (idx + 1) (writeOp clear idx mask) set j, writeOp_length,
        writeOp_getD]
      by_cases hge : idx + 1 ≤ j
      · rw [if_neg (show ¬(j = idx ∧ idx < clear.length) by
            rintro ⟨h1, h2⟩; omega)]
        have hsub : j - idx = (j - (idx + 1)) + 1 := by omega
        rw [hsub]
        simp only [List.getD_cons_succ, List.length_cons]
        refine if_congr ?_ rfl rfl
        constructor
        · rintro ⟨h1, h2, h3, h4⟩; exact ⟨by omega, by omega, h3, h4⟩
        · rintro ⟨h1, h2, h3, h4⟩; exact ⟨by omega, by omega, h3, h4⟩
      · rw [if_neg (by rintro ⟨h1, h2, h3, h4⟩; omega)]
        by_cases hj : j = idx
        · subst hj
          by_cases hi : j < clear.length
          · rw [if_pos ⟨rfl, hi⟩, if_pos ⟨le_refl j,
              by simp only [List.length_cons]; omega,
              by rw [Nat.sub_self, List.getD_cons_zero], hi⟩]
          · rw [if_neg (fun hx => hi hx.2), if_neg (fun hx => hi hx.2.2.2)]
        · rw [if_neg (fun hx => hj hx.1),
            if_neg (by rintro ⟨h1, h2, h3, h4⟩; omega)]

/-- Pointwise effect of replaying from index `idx` on the set buffer:
word j gains the mask exactly when the op at position j - idx is an
in-range set write. -/
theorem raster32BitsApply_snd_getD (mask : Nat) (ops : List Bool) :
    ∀ idx clear set j,
      (raster32BitsApply mask idx ops clear set).2.getD j 0 =
        if idx ≤ j ∧ j < idx + ops.length ∧ ops.getD (j - idx) false = true
            ∧ j < set.length
        then set.getD j 0 ||| mask else set.getD j 0 := by
  induction ops with
  | nil =>
    intro idx clear set j
    rw [if_neg (by rintro ⟨h1, h2, h3, h4⟩
                   simp only [List.length_nil] at h2; omega)]
    rfl
  | cons op rest ih =>
    intro idx clear set j
    cases op with
    | false =>
      have hred : raster32BitsApply mask idx (false :: rest) clear set
          = raster32BitsApply mask (idx + 1) rest (writeOp clear idx mask) set :=
        rfl
      rw [hred, ih (idx + 1) (writeOp clear idx mask) set j]
      by_cases hge : idx + 1 ≤ j
      · have hsub : j - idx = (j - (idx + 1)) + 1 := by omega
        rw [hsub]
        simp only [List.getD_cons_succ, List.length_cons]
        refine if_congr ?_ rfl rfl
        constructor
        · rintro ⟨h1, h2, h3, h4⟩; exact ⟨by omega, by omega, h3, h4⟩
        · rintro ⟨h1, h2, h3, h4⟩; exact ⟨by omega, by omega, h3, h4⟩
      · rw [if_neg (by rintro ⟨h1, h2, h3, h4⟩; omega)]
        by_cases hj : j = idx
        · subst hj
          rw [if_neg (by rintro ⟨h1, h2, h3, h4⟩
                         rw [Nat.sub_self, List.getD_cons_zero] at h3
                         exact absurd h3 (by decide))]
        · rw [if_neg (by rintro ⟨h1, h2, h3, h4⟩; omega)]
    | true =>
      have hred : raster32BitsApply mask idx (true :: rest) clear set
          = raster32BitsApply mask (idx + 1) rest clear (writeOp set idx mask) :=
        rfl
      rw [hred, ih (idx + 1) clear (writeOp set idx mask) j, writeOp_length,
        writeOp_getD]
      by_cases hge : idx + 1 ≤ j
      · rw [if_neg (show ¬(j = idx ∧ idx < set.length) by
            rintro ⟨h1, h2⟩; omega)]
        have hsub : j - idx = (j - (idx + 1)) + 1 := by omega
        rw [hsub]
        simp only [List.getD_cons_succ, List.length_cons]
        refine if_congr ?_ rfl rfl
        constructor
        · rintro ⟨h1, h2, h3, h4⟩; exact ⟨by omega, by omega, h3, h4⟩
        · rintro ⟨h1, h2, h3, h4⟩; exact ⟨by omega, by omega, h3, h4⟩
      · rw [if_neg (by rintro ⟨h1, h2, h3, h4⟩; omega)]
        by_cases hj : j = idx
        · subst hj
          by_cases hi : j < set.length
          · rw [if_pos ⟨rfl, hi⟩, if_pos ⟨le_refl j,
              by simp only [List.length_cons]; omega,
              by rw [Nat.sub_self, List.getD_cons_zero], hi⟩]
          · rw [if_neg (fun hx => hi hx.2), if_neg (fun hx => hi hx.2.2.2)]
        · rw [if_neg (fun hx => hj hx.1),
            if_neg (by rintro ⟨h1, h2, h3, h4⟩; omega)]

/-- The logical bit sequence raster32Bits consumes: one Bool per bit of
the first m bytes, in getBit order. -/
def bitSeq (bits : List Nat) (msb : Bool) (m : Nat) : List Bool :=
  (bits.take m).flatMap fun b => (List.range 8).map fun j => getBit b j msb != 0

theorem raster32BitsOps_eq_flatMap (bits : List Nat) (msb : Bool)
    (skip m : Nat) :
    raster32BitsOps bits msb skip m
      = (bitSeq bits msb m).flatMap fun v => List.replicate skip v := by
  simp only [raster32BitsOps, bitSeq, List.flatMap_assoc, List.flatMap_map]

theorem flatMap_replicate_length (l : List Bool) (k : Nat) :
    (l.flatMap fun v => List.replicate k v).length = l.length * k := by
  induction l with
  | nil => simp
  | cons v rest ih =>
    rw [List.flatMap_cons, List.length_append, List.length_replicate, ih,
      List.length_cons, Nat.succ_mul]
    omega

theorem bitSeq_length (bits : List Nat) (msb : Bool) (m : Nat) :
    (bitSeq bits msb m).length = min m bits.length * 8 := by
  rw [bitSeq, List.length_flatMap]
  have hfun : (List.length ∘ fun b : Nat =>
      (List.range 8).map fun j => (getBit b j msb != 0)) = fun _ => 8 := by
    funext b
    simp
  rw [hfun, List.map_const', List.sum_replicate, List.length_take,
    smul_eq_mul]

theorem raster32BitsOps_length (bits : List Nat) (msb : Bool) (skip m : Nat) :
    (raster32BitsOps bits msb skip m).length = min m bits.length * 8 * skip := by
  rw [raster32BitsOps_eq_flatMap, flatMap_replicate_length, bitSeq_length]

theorem getD_replicate_zero (L j : Nat) :
    (List.replicate L (0 : Nat)).getD j 0 = 0 := by
  rw [List.getD_eq_getElem?_getD, List.getElem?_replicate]
  split <;> rfl

theorem flatMap_replicate_getD (k : Nat) (l : List Bool) :
    ∀ t u : Nat, ∀ d : Bool, t < l.length → u < k →
      (l.flatMap fun v => List.replicate k v).getD (t * k + u) d = l.getD t d := by
  induction l with
  | nil =>
    intro t u d ht hu
    exact absurd ht (by simp)
  | cons v rest ih =>
    intro t u d ht hu
    rw [List.flatMap_cons]
    cases t with
    | zero =>
      rw [Nat.zero_mul, Nat.zero_add,
        List.getD_append _ _ _ u (by rw [List.length_replicate]; exact hu),
        List.getD_cons_zero, List.getD_eq_getElem?_getD,
        List.getElem?_replicate, if_pos hu, Option.getD_some]
    | succ t2 =>
      have hidx : (t2 + 1) * k + u = k + (t2 * k + u) := by
        rw [Nat.succ_mul]; omega
      rw [hidx, List.getD_append_right _ _ _ _
          (by rw [List.length_replicate]; omega),
        List.length_replicate, Nat.add_sub_cancel_left, List.getD_cons_succ]
      exact ih t2 u d (by simpa using ht) hu

theorem getD_take_of_lt {α : Type} (l : List α) (m i : Nat) (h : i < m)
    (d : α) : (l.take m).getD i d = l.getD i d := by
  rw [List.getD_eq_getElem?_getD, List.getElem?_take, if_pos h,
    ← List.getD_eq_getElem?_getD]

theorem byteBits_getD (msb : Bool) (l : List Nat) :
    ∀ t : Nat, ∀ d : Bool, t < 8 * l.length →
      (l.flatMap fun b => (List.range 8).map fun j =>
          (getBit b j msb != 0)).getD t d
      = (getBit (l.getD (t / 8) 0) (t % 8) msb != 0) := by
  induction l with
  | nil =>
    intro t d ht
    exact absurd ht (by simp)
  | cons b rest ih =>
    intro t d ht
    rw [List.flatMap_cons]
    by_cases h8 : t < 8
    · have hlen : t < ((List.range 8).map fun j =>
          (getBit b j msb != 0)).length := by
        rw [List.length_map, List.length_range]; exact h8
      rw [List.getD_append _ _ _ t hlen, List.getD_eq_getElem _ _ hlen,
        List.getElem_map, List.getElem_range,
        Nat.div_eq_of_lt h8, Nat.mod_eq_of_lt h8, List.getD_cons_zero]
    · have hge : 8 ≤ t := by omega
      have hdiv : t / 8 = (t - 8) / 8 + 1 := by omega
      have hmod : t % 8 = (t - 8) % 8 := by omega
      rw [List.getD_append_right _ _ _ _
          (by rw [List.length_map, List.length_range]; exact hge),
        List.length_map, List.length_range, hdiv, hmod,
        List.getD_cons_succ]
      exact ih (t - 8) d (by simp only [List.length_cons] at ht; omega)

/-- The op at position t * skip + u of the write sequence is the t-th
consumed logical bit (true for a set write, false for a clear write). -/
theorem raster32BitsOps_getD (bits : List Nat) (msb : Bool) (skip m t u : Nat)
    (d : Bool) (ht : t < 8 * m) (hm : m ≤ bits.length) (hu : u < skip) :
    (raster32BitsOps bits msb skip m).getD (t * skip + u) d
      = (getBit (bits.getD (t / 8) 0) (t % 8) msb != 0) := by
  have hlen : t < (bitSeq bits msb m).length := by
    rw [bitSeq_length]
    have : min m bits.length = m := by omega
    rw [this]; omega
  rw [raster32BitsOps_eq_flatMap, flatMap_replicate_getD skip _ t u d hlen hu,
    bitSeq, byteBits_getD msb _ t d
      (by rw [List.length_take]; have : min m bits.length = m := by omega
          rw [this]; exact ht),
    getD_take_of_lt bits m (t / 8) (by omega) 0]

theorem apply_fst_getD_zero (mask : Nat) (ops : List Bool) (L j : Nat)
    (hops : ops.length ≤ L) :
    (raster32BitsApply mask 0 ops (List.replicate L 0)
        (List.replicate L 0)).1.getD j 0
      = if j < ops.length ∧ ops.getD j true = false then mask else 0 := by
  rw [raster32BitsApply_fst_getD, getD_replicate_zero, List.length_replicate,
    Nat.zero_or]
  refine if_congr ?_ rfl rfl
  constructor
  · rintro ⟨h1, h2, h3, h4⟩
    exact ⟨by omega, by simpa using h3⟩
  · rintro ⟨h1, h2⟩
    exact ⟨by omega, by omega, by simpa using h2, by omega⟩

theorem apply_snd_getD_zero (mask : Nat) (ops : List Bool) (L j : Nat)
    (hops : ops.length ≤ L) :
    (raster32BitsApply mask 0 ops (List.replicate L 0)
        (List.replicate L 0)).2.getD j 0
      = if j < ops.length ∧ ops.getD j false = true then mask else 0 := by
  rw [raster32BitsApply_snd_getD, getD_replicate_zero, List.length_replicate,
    Nat.zero_or]
  refine if_congr ?_ rfl rfl
  constructor
  · rintro ⟨h1, h2, h3, h4⟩
    exact ⟨by omega, by simpa using h3⟩
  · rintro ⟨h1, h2⟩
    exact ⟨by omega, by omega, by simpa using h2, by omega⟩

theorem apply_fst_explicit (mask : Nat) (ops : List Bool) (L : Nat)
    (hops : ops.length ≤ L) :
    (raster32BitsApply mask 0 ops (List.replicate L 0)
        (List.replicate L 0)).1
      = (ops.map fun b : Bool => if b then 0 else mask)
        ++ List.replicate (L - ops.length) 0 := by
  have hlen1 : (raster32BitsApply mask 0 ops (List.replicate L 0)
      (List.replicate L 0)).1.length = L := by
    rw [(raster32BitsApply_length mask ops 0 _ _).1, List.length_replicate]
  have hlen2 : ((ops.map fun b : Bool => if b then 0 else mask)
      ++ List.replicate (L - ops.length) 0).length = L := by
    rw [List.length_append, List.length_map, List.length_replicate]
    omega
  apply List.ext_get (by rw [hlen1, hlen2])
  intro n h1 h2
  rw [List.get_eq_getElem, List.get_eq_getElem,
    ← List.getD_eq_getElem _ 0 h1, ← List.getD_eq_getElem _ 0 h2,
    apply_fst_getD_zero mask ops L n hops]
  by_cases hn : n < ops.length
  · have hmaplen : n < (ops.map fun b : Bool =>
        if b then 0 else mask).length := by
      rw [List.length_map]; exact hn
    rw [List.getD_append _ _ _ n hmaplen, List.getD_eq_getElem _ _ hmaplen,
      List.getElem_map, List.getD_eq_getElem _ _ hn]
    cases hb : ops[n] <;> simp [hn]
  · rw [List.getD_append_right _ _ _ _
        (by rw [List.length_map]; omega),
      if_neg (fun hx => hn hx.1), getD_replicate_zero]

theorem apply_snd_explicit (mask : Nat) (ops : List Bool) (L : Nat)
    (hops : ops.length ≤ L) :
    (raster32BitsApply mask 0 ops (List.replicate L 0)
        (List.replicate L 0)).2
      = (ops.map fun b : Bool => if b then mask else 0)
        ++ List.replicate (L - ops.length) 0 := by
  have hlen1 : (raster32BitsApply mask 0 ops (List.replicate L 0)
      (List.replicate L 0)).2.length = L := by
    rw [(raster32BitsApply_length mask ops 0 _ _).2, List.length_replicate]
  have hlen2 : ((ops.map fun b : Bool => if b then mask else 0)
      ++ List.replicate (L - ops.length) 0).length = L := by
    rw [List.length_append, List.length_map, List.length_replicate]
    omega
  apply List.ext_get (by rw [hlen1, hlen2])
  intro n h1 h2
  rw [List.get_eq_getElem, List.get_eq_getElem,
    ← List.getD_eq_getElem _ 0 h1, ← List.getD_eq_getElem _ 0 h2,
    apply_snd_getD_zero mask ops L n hops]
  by_cases hn : n < ops.length
  · have hmaplen : n < (ops.map fun b : Bool =>
        if b then mask else 0).length := by
      rw [List.length_map]; exact hn
    rw [List.getD_append _ _ _ n hmaplen, List.getD_eq_getElem _ _ hmaplen,
      List.getElem_map, List.getD_eq_getElem _ _ hn]
    cases hb : ops[n] <;> simp [hn]
  · rw [List.getD_append_right _ _ _ _
        (by rw [List.length_map]; omega),
      if_neg (fun hx => hn hx.1), getD_replicate_zero]

theorem countMask_append (mask : Nat) (a b : List Nat) :
    countMask mask (a ++ b) = countMask mask a + countMask mask b := by
  rw [countMask, countMask, countMask, List.filter_append, List.length_append]

theorem countMask_replicate_zero (mask r : Nat) :
    countMask mask (List.replicate r 0) = 0 := by
  rw [countMask, List.filter_replicate]
  rw [if_neg (by simp)]
  rfl

theorem countMask_map_clear (mask : Nat) (hmask : mask ≠ 0) (ops : List Bool) :
    countMask mask (ops.map fun b => if b then 0 else mask)
      = (ops.filter fun b => !b).length := by
  rw [countMask, List.filter_map, List.length_map]
  have hfun : ((fun w => w &&& mask != 0) ∘ fun b : Bool =>
      if b then 0 else mask) = fun b : Bool => !b := by
    funext b
    cases b
    · simp [Nat.and_self, hmask]
    · simp [Nat.zero_and]
  rw [hfun]

theorem countMask_map_set (mask : Nat) (hmask : mask ≠ 0) (ops : List Bool) :
    countMask mask (ops.map fun b => if b then mask else 0)
      = (ops.filter fun b => b).length := by
  rw [countMask, List.filter_map, List.length_map]
  have hfun : ((fun w => w &&& mask != 0) ∘ fun b : Bool =>
      if b then mask else 0) = fun b : Bool => b := by
    funext b
    cases b
    · simp [Nat.zero_and]
    · simp [Nat.and_self, hmask]
  rw [hfun]

theorem filter_length_split (l : List Bool) :
    (l.filter fun b => b).length + (l.filter fun b => !b).length = l.length := by
  induction l with
  | nil => rfl
  | cons b rest ih =>
    cases b <;> simp only [List.filter_cons] <;> simp <;> omega

/-- C2 counterexample: with the 8-bit stream [0x00], skip 1 and equal
nonempty one-word buffers, raster32Bits truncates to
min(len(clear)/8, len(bits)) = 0 bytes and sets 0 lane-bit positions,
not n*k = 8: the claim is false for arbitrary equal-length nonempty
buffers. -/
theorem raster32Bits_short_buffer_counterexample :
    raster32Bits (.bits ⟨1, [0], false⟩) 1 [0] [0] 1 = .ok ([0], [0])
  ∧ countMask 1 [0] + countMask 1 [0] ≠ 8 * [(0 : Nat)].length * 1 :=
  ⟨rfl, by decide⟩

/-- C2 (amended): when the zero-initialized equal-length buffers are
long enough for every replicated bit (8 * skip * len(bits) <= len),
raster32Bits sets exactly n*k lane-bit positions in total across the
clear and set buffers, and for each consumed bit t (MSB-first within
each byte unless LSBF) and each replication slot u < skip, word
t*skip+u of `set` carries the mask exactly when bit t is 1, and word
t*skip+u of `clear` carries it exactly when bit t is 0. -/
theorem raster32Bits_count_and_order (res : Int) (bits : List Nat)
    (lsbf : Bool) (skip L mask : Nat) (cf sf : List Nat)
    (hmask : mask ≠ 0) (hskip : 1 ≤ skip) (hL : 8 * skip * bits.length ≤ L)
    (h : raster32Bits (.bits ⟨res, bits, lsbf⟩) skip (List.replicate L 0)
        (List.replicate L 0) mask = .ok (cf, sf)) :
    countMask mask cf + countMask mask sf = 8 * bits.length * skip
  ∧ ∀ t u : Nat, t < 8 * bits.length → u < skip →
      (streamBit bits lsbf t = true →
        sf.getD (t * skip + u) 0 = mask ∧ cf.getD (t * skip + u) 0 = 0)
    ∧ (streamBit bits lsbf t = false →
        cf.getD (t * skip + u) 0 = mask ∧ sf.getD (t * skip + u) 0 = 0) := by
  have hm : min ((List.replicate L (0 : Nat)).length / 8) bits.length
      = bits.length := by
    rw [List.length_replicate]
    have h1 : 8 * 1 ≤ 8 * skip := Nat.mul_le_mul_left 8 hskip
    have h2 : (8 * 1) * bits.length ≤ (8 * skip) * bits.length :=
      Nat.mul_le_mul_right bits.length h1
    have h3 : 8 * bits.length ≤ L := by
      calc 8 * bits.length = (8 * 1) * bits.length := by ring
        _ ≤ (8 * skip) * bits.length := h2
        _ = 8 * skip * bits.length := by ring
        _ ≤ L := hL
    have h4 : bits.length ≤ L / 8 :=
      (Nat.le_div_iff_mul_le (by norm_num)).2 (by omega)
    omega
  have hrfl : raster32Bits (.bits ⟨res, bits, lsbf⟩) skip (List.replicate L 0)
      (List.replicate L 0) mask
      = .ok (raster32BitsApply mask 0
          (raster32BitsOps bits (!lsbf) skip
            (min ((List.replicate L (0 : Nat)).length / 8) bits.length))
          (List.replicate L 0) (List.replicate L 0)) := rfl
  rw [hm] at hrfl
  have hpair := Except.ok.inj (hrfl.symm.trans h)
  have hcf : cf = (raster32BitsApply mask 0
      (raster32BitsOps bits (!lsbf) skip bits.length)
      (List.replicate L 0) (List.replicate L 0)).1 :=
    (congrArg Prod.fst hpair).symm
  have hsf : sf = (raster32BitsApply mask 0
      (raster32BitsOps bits (!lsbf) skip bits.length)
      (List.replicate L 0) (List.replicate L 0)).2 :=
    (congrArg Prod.snd hpair).symm
  have hopslen : (raster32BitsOps bits (!lsbf) skip bits.length).length
      = 8 * bits.length * skip := by
    rw [raster32BitsOps_length, Nat.min_self]
    ring
  have hople : (raster32BitsOps bits (!lsbf) skip bits.length).length ≤ L := by
    rw [hopslen, show 8 * bits.length * skip = 8 * skip * bits.length from
      by ring]
    exact hL
  constructor
  · rw [hcf, hsf, apply_fst_explicit mask _ L hople,
      apply_snd_explicit mask _ L hople, countMask_append, countMask_append,
      countMask_map_clear mask hmask, countMask_map_set mask hmask,
      countMask_replicate_zero]
    have hsplit := filter_length_split (raster32BitsOps bits (!lsbf) skip
      bits.length)
    omega
  · intro t u ht hu
    have hjlt : t * skip + u
        < (raster32BitsOps bits (!lsbf) skip bits.length).length := by
      rw [hopslen]
      calc t * skip + u < (t + 1) * skip := by rw [Nat.succ_mul]; omega
        _ ≤ (8 * bits.length) * skip :=
          Nat.mul_le_mul_right skip (by omega)
        _ = 8 * bits.length * skip := by ring
    have hopT : (raster32BitsOps bits (!lsbf) skip bits.length).getD
        (t * skip + u) true = streamBit bits lsbf t := by
      rw [raster32BitsOps_getD bits (!lsbf) skip bits.length t u true ht
        (le_refl _) hu]
      rfl
    have hopF : (raster32BitsOps bits (!lsbf) skip bits.length).getD
        (t * skip + u) false = streamBit bits lsbf t := by
      rw [raster32BitsOps_getD bits (!lsbf) skip bits.length t u false ht
        (le_refl _) hu]
      rfl
    constructor
    · intro hbit
      constructor
      · rw [hsf, apply_snd_getD_zero mask _ L _ hople,
          if_pos ⟨hjlt, by rw [hopF, hbit]⟩]
      · rw [hcf, apply_fst_getD_zero mask _ L _ hople,
          if_neg (fun hx => by
            rw [hopT, hbit] at hx
            exact absurd hx.2 (by decide))]
    · intro hbit
      constructor
      · rw [hcf, apply_fst_getD_zero mask _ L _ hople,
          if_pos ⟨hjlt, by rw [hopT, hbit]⟩]
      · rw [hsf, apply_snd_getD_zero mask _ L _ hople,
          if_neg (fun hx => by
            rw [hopF, hbit] at hx
            exact absurd hx.2 (by decide))]

/-- Witness for C2 at the 8-bit stream [0x80], skip 1, mask 1, 8-word
zeroed buffers: 8 lane bits are set in total and the first consumed bit
(the MSB, which is 1) asserts word 0 of the set buffer. -/
theorem raster32Bits_count_and_order_witness :
    countMask 1 [0, 1, 1, 1, 1, 1, 1, 1] + countMask 1 [1, 0, 0, 0, 0, 0, 0, 0]
      = 8 * [(128 : Nat)].length * 1
  ∧ [1, 0, 0, 0, 0, 0, 0, 0].getD (0 * 1 + 0) 0 = 1
  ∧ [0, 1, 1, 1, 1, 1, 1, 1].getD (0 * 1 + 0) 0 = 0 := by
  have h := raster32Bits_count_and_order 1 [128] false 1 8 1
    [0, 1, 1, 1, 1, 1, 1, 1] [1, 0, 0, 0, 0, 0, 0, 0]
    (by decide) (by decide) (by decide) rfl
  have h2 := (h.2 0 0 (by decide) (by decide)).1 (by decide)
  exact ⟨h.1, h2.1, h2.2⟩

/-- C10 counterexample: with the one-byte stream [0x00], skip 2 and
equal 8-word buffers, the loop bound min(len(clear)/8, len(bits)) is 1
byte, so raster32Bits performs 16 writes; the write at position 8
targets buffer index 8, which is not below the buffer length (the Go
code panics there). -/
theorem raster32Bits_oob_counterexample :
    8 < (raster32BitsOps [0] (!false) 2
        (min ((List.replicate 8 (0 : Nat)).length / 8) [(0 : Nat)].length)).length
  ∧ ¬(8 < (List.replicate 8 (0 : Nat)).length) := by
  constructor
  · decide
  · decide

/-- C10 (amended): the i-th entry of raster32BitsOps is the write
raster32Bits performs at buffer index i; every such index is strictly
below the buffer length whenever skip = 1, or whenever the buffers hold
every replicated bit (8 * skip * len(bits) <= len(clear)); for skip >= 2
with smaller buffers an out-of-bounds index can occur. -/
theorem raster32Bits_writes_in_bounds (bits : List Nat) (lsbf : Bool)
    (skip : Nat) (clear : List Nat)
    (h : skip = 1 ∨ 8 * skip * bits.length ≤ clear.length) :
    ∀ i, i < (raster32BitsOps bits (!lsbf) skip
        (min (clear.length / 8) bits.length)).length → i < clear.length := by
  intro i hi
  rw [raster32BitsOps_length] at hi
  rcases h with h1 | h2
  · subst h1
    have hdiv := Nat.div_mul_le_self clear.length 8
    omega
  · have hmle : min (min (clear.length / 8) bits.length) bits.length
        ≤ bits.length := by omega
    have hle : min (min (clear.length / 8) bits.length) bits.length * 8 * skip
        ≤ bits.length * 8 * skip :=
      Nat.mul_le_mul_right skip (Nat.mul_le_mul_right 8 hmle)
    have heq : bits.length * 8 * skip = 8 * skip * bits.length := by ring
    omega

/-- Witness for C10 with skip 1, one byte and 8-word buffers: the last
write (index 7) is in bounds. -/
theorem raster32Bits_writes_in_bounds_witness :
    (7 : Nat) < (List.replicate 8 (0 : Nat)).length :=
  raster32Bits_writes_in_bounds [0] false 1 (List.replicate 8 0)
    (Or.inl rfl) 7 (by decide)

end Periph
